import Mathlib

/-!
Verification of the SRAM-PUF analysis pipeline
(bit decoding, per-bit statistics, majority fingerprint,
Hamming distances, XOR debiasing) against its specification.

Bit sequences are lists of naturals (each 0 or 1), cohorts are lists of
bit sequences, and all rates are exact rationals over the integer counts
the Python code computes in floating point.
-/

namespace PUF

/-! ### BitDecoder: `load_sram_file`

The Python decoder strips separator characters, parses consecutive
2-character substrings at even offsets as hexadecimal bytes (skipping
substrings that fail to parse and dropping a lone trailing character),
and expands each byte into 8 bits, most-significant bit first. -/

/-- Value of one hexadecimal digit character, `none` for a non-hex
character. Models the per-character acceptance of Python's
`int(s, 16)` on the two-character substrings the decoder forms. -/
def hexDigitVal? (c : Char) : Option Nat :=
  if '0' ≤ c ∧ c ≤ '9' then some (c.toNat - '0'.toNat)
  else if 'a' ≤ c ∧ c ≤ 'f' then some (c.toNat - 'a'.toNat + 10)
  else if 'A' ≤ c ∧ c ≤ 'F' then some (c.toNat - 'A'.toNat + 10)
  else none

/-- `content.replace(' ','').replace('\r','').replace('\n','').replace('.','')`. -/
def stripSeparators (s : List Char) : List Char :=
  s.filter (fun c => ¬ (c = ' ' ∨ c = '\r' ∨ c = '\n' ∨ c = '.'))

/-- `int(hex_str[i:i+2], 16)` on a two-character substring. -/
def hexPairVal? (c₁ c₂ : Char) : Option Nat := do
  let d₁ ← hexDigitVal? c₁
  let d₂ ← hexDigitVal? c₂
  pure (16 * d₁ + d₂)

/-- The parsing loop `for i in range(0, len(hex_str) - 1, 2)`: consume the
characters two at a time; a pair that fails to parse is skipped
(`except ValueError: continue`), and a lone trailing character is never
visited (the range stops at `len - 1`). -/
def parseHexBytes : List Char → List Nat
  | c₁ :: c₂ :: rest =>
    match hexPairVal? c₁ c₂ with
    | some b => b :: parseHexBytes rest
    | none => parseHexBytes rest
  | _ => []

/-- `for i in range(7, -1, -1): bits.append((byte >> i) & 1)`. -/
def byteToBits (b : Nat) : List Nat :=
  (List.range 8).map (fun k => (b >>> (7 - k)) &&& 1)

/-- The pure core of `load_sram_file`: text content in, bit sequence out. -/
def load_sram_file (content : List Char) : List Nat :=
  (parseHexBytes (stripSeparators content)).flatMap byteToBits

/-! ### StatisticsEngine -/

/-- The common length of a rectangular cohort (`samples_array.shape[1]`). -/
def cohortLen (samples : List (List Nat)) : Nat :=
  (samples.headD []).length

/-- `np.mean(samples_array, axis=0)` at position `i`: the exact 1-rate of
bit `i` across the cohort. -/
def perBitRate (samples : List (List Nat)) (i : Nat) : ℚ :=
  ((samples.map (fun s => s.getD i 0)).sum : ℚ) / samples.length

/-- `current_hw = np.mean(mean_per_bit)`: the global 1-rate, the mean of
the per-bit rates over all `cohortLen` positions. -/
def currentHW (samples : List (List Nat)) : ℚ :=
  (((List.range (cohortLen samples)).map (perBitRate samples)).sum) /
    cohortLen samples

/-- `compute_fingerprint`: majority vote, `(per_bit_mean >= 0.5).astype(uint8)`. -/
def compute_fingerprint (samples : List (List Nat)) : List Nat :=
  (List.range (cohortLen samples)).map
    (fun i => if (1 : ℚ) / 2 ≤ perBitRate samples i then 1 else 0)

/-! ### DistanceEngine -/

/-- Number of positions where the two (truncated, equal-length) slices
differ: `np.sum(bits1[:min_len] != bits2[:min_len])`. -/
def diffCount (b₁ b₂ : List Nat) : Nat :=
  (List.zipWith (fun x y => if x = y then 0 else 1) b₁ b₂).sum

/-- `hamming_distance` as in `puf_intra_HD.py` / `puf_inter_HD.py`:
fractional Hamming distance over the first `min(len, len)` positions.
When both sequences are empty the division `0 / 0` has no valid value
(numpy emits an invalid-division `nan`, not a number); the fallible
result is `none`. -/
def hamming_distance (b₁ b₂ : List Nat) : Option ℚ :=
  let minLen := min b₁.length b₂.length
  if minLen = 0 then none
  else some ((diffCount (b₁.take minLen) (b₂.take minLen) : ℚ) / minLen)

/-- `hamming_distance` as in `puf_unstable_bits.py`: identical except for
the explicit guard `if min_len == 0: return 0`. -/
def hamming_distance_ub (b₁ b₂ : List Nat) : ℚ :=
  let minLen := min b₁.length b₂.length
  if minLen = 0 then 0
  else (diffCount (b₁.take minLen) (b₂.take minLen) : ℚ) / minLen

/-- `itertools.combinations(l, 2)`: every unordered pair of distinct
positions, each exactly once. -/
def combinations2 {α : Type} : List α → List (α × α)
  | [] => []
  | x :: xs => xs.map (fun y => (x, y)) ++ combinations2 xs

/-- `compute_intra_hd`: all pairwise distances within one cohort. -/
def compute_intra_hd (samples : List (List Nat)) : List (Option ℚ) :=
  (combinations2 samples).map (fun p => hamming_distance p.1 p.2)

/-- `compute_inter_hd`: all ordered cross-cohort distances. -/
def compute_inter_hd (samples₁ samples₂ : List (List Nat)) : List (Option ℚ) :=
  samples₁.flatMap (fun s₁ => samples₂.map (fun s₂ => hamming_distance s₁ s₂))

/-! ### DebiasEngine: mask application -/

/-- `np.bitwise_xor(s, mask[:len(s)])` for one sample. -/
def apply_xor_mask_one (s mask : List Nat) : List Nat :=
  List.zipWith (fun a b => a ^^^ b) s (mask.take s.length)

/-- `apply_xor_mask`: the cohort-wide mask applied independently to
every member. -/
def apply_xor_mask (samples : List (List Nat)) (mask : List Nat) :
    List (List Nat) :=
  samples.map (fun s => apply_xor_mask_one s mask)

/-! ### DebiasEngine: mask construction

`create_xor_mask` draws `num_to_flip` distinct positions from the
stable-zero pool with `np.random.seed(42); np.random.choice(...,
replace=False)`.  The draw is modelled by a deterministic seeded
Fisher–Yates-style extraction: the exact MT19937 word stream of the
legacy numpy generator is not reproduced, but everything the analysis
depends on is preserved — the draw is a pure function of the seed and
the pool, and it yields `size` distinct elements of the pool. -/

/-- One step of a deterministic 64-bit congruential stream standing in
for the seeded numpy generator. -/
def lcgNext (s : Nat) : Nat :=
  (6364136223846793005 * s + 1442695040888963407) % (2 ^ 64)

/-- Fisher–Yates-style extraction: repeatedly remove the element at a
stream-chosen index.  `fuel` is the number of elements still to draw. -/
def shuffleGo : Nat → Nat → List Nat → List Nat
  | 0, _, _ => []
  | _ + 1, _, [] => []
  | fuel + 1, s, l@(_ :: _) =>
    let a := l.getD (s % l.length) 0
    a :: shuffleGo fuel (lcgNext s) (l.erase a)

/-- A full deterministic permutation of `l` driven by `seed`. -/
def shuffle (seed : Nat) (l : List Nat) : List Nat :=
  shuffleGo l.length seed l

/-- `np.random.choice(pool, size=k, replace=False)` under a fixed seed:
the first `k` entries of the seeded permutation of the pool. -/
def selectIndices (seed : Nat) (pool : List Nat) (k : Nat) : List Nat :=
  (shuffle seed pool).take k

/-- Python's `int()` applied to an exact rational: truncation toward
zero. -/
def pyInt (q : ℚ) : ℤ :=
  q.num.tdiv q.den

/-- `np.where(mean_per_bit < 0.05)[0]`: the stable-zero positions
eligible for flipping. -/
def eligibleIndices (samples : List (List Nat)) : List Nat :=
  (List.range (cohortLen samples)).filter
    (fun i => perBitRate samples i < 1 / 20)

/-- `num_to_flip = min(int(target_flip_ratio * L), len(stable_indices))`
with `target_flip_ratio = 0.5 - current_hw`: the bias correction is
capped by the eligible pool. -/
def numToFlip (samples : List (List Nat)) : ℤ :=
  min (pyInt ((1 / 2 - currentHW samples) * (cohortLen samples : ℚ)))
    ((eligibleIndices samples).length : ℤ)

/-- The body of `create_xor_mask` with the generator seed explicit:
draw `numToFlip` positions from the stable-zero pool and set them in an
all-zero mask of length `L`.  A negative `num_to_flip` (global rate
above 0.5 by at least one position's worth) makes `np.random.choice`
raise, so the run fails: `none`. -/
def create_xor_mask_seeded (seed : Nat) (samples : List (List Nat)) :
    Option (List Nat) :=
  if numToFlip samples < 0 then none
  else
    some ((List.range (cohortLen samples)).map
      (fun i =>
        if i ∈ selectIndices seed (eligibleIndices samples)
            (numToFlip samples).toNat
        then 1 else 0))

/-- `create_xor_mask` as executed with ambient numpy generator state
`rng`: the body runs `np.random.seed(42)` before drawing, so the
ambient state is discarded and the fixed seed is used. -/
def create_xor_mask_run (_rng : Nat) (samples : List (List Nat)) :
    Option (List Nat) :=
  create_xor_mask_seeded 42 samples

/-- `create_xor_mask` as a plain function of the cohort. -/
def create_xor_mask (samples : List (List Nat)) : Option (List Nat) :=
  create_xor_mask_run 0 samples

/-- Number of set bits of a mask. -/
def countOnes (mask : List Nat) : Nat :=
  mask.count 1

/-! ### Fingerprint packing (`np.packbits`) and hex rendering -/

/-- Reassemble a most-significant-bit-first bit list into one byte
value. -/
def bitsToByte (bits : List Nat) : Nat :=
  bits.foldl (fun acc b => 2 * acc + b) 0

/-- `np.packbits`: pack bits into bytes 8 at a time, most-significant
bit first, the final partial group zero-padded on the right. -/
def packbits : List Nat → List Nat
  | [] => []
  | b :: rest =>
    let chunk := (b :: rest).take 8
    bitsToByte (chunk ++ List.replicate (8 - chunk.length) 0) ::
      packbits ((b :: rest).drop 8)
termination_by bits => bits.length
decreasing_by simp [List.length_drop]; omega

/-- The uppercase hexadecimal digit character of a value below 16. -/
def hexDigitChar (d : Nat) : Char :=
  if d < 10 then Char.ofNat (48 + d) else Char.ofNat (55 + d)

/-- Modelled from the spec: a capture file renders each byte as an
uppercase two-digit hexadecimal pair followed by a space
("uppercase 2-digit hex byte values space-separated").  The renderer
itself lives outside the analysis code (the capture hardware / cleaning
step produces these files). -/
def renderHex (bytes : List Nat) : List Char :=
  bytes.flatMap (fun b => [hexDigitChar (b / 16), hexDigitChar (b % 16), ' '])

/-! ## Theorems -/

theorem byteToBits_length (b : Nat) : (byteToBits b).length = 8 := by
  simp [byteToBits]

theorem flatMap_byteToBits_length (l : List Nat) :
    (l.flatMap byteToBits).length = 8 * l.length := by
  induction l with
  | nil => simp
  | cons b rest ih =>
    simp only [List.flatMap_cons, List.length_append, byteToBits_length,
      List.length_cons, ih]
    ring

/-- C9: every bit emitted by the decoder belongs to a fully parsed
two-hex-character byte, so the decoded bit sequence always has length a
multiple of 8. -/
theorem load_sram_file_length_multiple_of_8 (content : List Char) :
    (load_sram_file content).length % 8 = 0 := by
  unfold load_sram_file
  rw [flatMap_byteToBits_length]
  omega

/-- C4: decoding "AA BB" yields the 16 bits 10101010 10111011, and
decoding "AA B" (malformed trailing nibble) yields the 8 bits 10101010
only, the trailing fragment being dropped. -/
theorem decode_scenarios :
    load_sram_file "AA BB".data = [1,0,1,0,1,0,1,0,1,0,1,1,1,0,1,1] ∧
    load_sram_file "AA B".data = [1,0,1,0,1,0,1,0] := by
  constructor <;> decide

/-- C2, counterexample: on two zero-length sequences the distance
operation of `puf_unstable_bits.py` silently returns the value 0
through its explicit `min_len == 0` guard, rather than failing. -/
theorem hamming_distance_ub_empty_returns_zero :
    hamming_distance_ub [] [] = 0 := by
  decide

/-- C2, amended: on two zero-length sequences the
`puf_unstable_bits.py` distance silently returns 0, and the
`puf_intra_HD.py` distance has no well-defined value (numpy divides
0 / 0, yielding `nan`; modelled `none`); neither variant raises an
explicit error. -/
theorem hamming_distance_empty_behaviour :
    hamming_distance [] [] = none ∧ hamming_distance_ub [] [] = 0 := by
  constructor <;> decide

theorem diffCount_comm (a : List Nat) :
    ∀ b, diffCount a b = diffCount b a := by
  induction a with
  | nil => intro b; cases b <;> simp [diffCount]
  | cons x xs ih =>
    intro b
    cases b with
    | nil => simp [diffCount]
    | cons y ys =>
      simp only [diffCount, List.zipWith_cons_cons, List.sum_cons] at *
      rw [ih ys]
      by_cases h : x = y
      · subst h; simp
      · rw [if_neg h, if_neg (fun hyx => h hyx.symm)]

/-- C8: the fractional Hamming distance is symmetric for equal-length
non-empty sequences. -/
theorem hamming_distance_symm (a b : List Nat)
    (_hlen : a.length = b.length) (_hne : a ≠ []) :
    hamming_distance a b = hamming_distance b a := by
  unfold hamming_distance
  rw [Nat.min_comm b.length a.length]
  simp only [diffCount_comm]

/-- C8 witness. -/
theorem hamming_distance_symm_witness :
    [1, 0].length = [0, 0].length ∧ ([1, 0] : List Nat) ≠ [] ∧
      hamming_distance [1, 0] [0, 0] = hamming_distance [0, 0] [1, 0] :=
  ⟨by decide, by decide, hamming_distance_symm [1, 0] [0, 0] (by decide) (by decide)⟩

theorem combinations2_length {α : Type} (l : List α) :
    (combinations2 l).length = l.length.choose 2 := by
  induction l with
  | nil => simp [combinations2]
  | cons x xs ih =>
    simp only [combinations2, List.length_append, List.length_map, ih,
      List.length_cons, Nat.choose_succ_succ, Nat.choose_one_right]

/-- C6: the intra-distance list of a size-n cohort has exactly
n(n-1)/2 entries (one per unordered pair of distinct members), and the
inter-distance list of size-m and size-n cohorts has exactly m·n
entries (one per ordered cross pair). -/
theorem distance_list_counts (cohort a b : List (List Nat)) :
    (compute_intra_hd cohort).length =
      cohort.length * (cohort.length - 1) / 2 ∧
    (compute_inter_hd a b).length = a.length * b.length := by
  constructor
  · rw [compute_intra_hd, List.length_map, combinations2_length,
      Nat.choose_two_right]
  · rw [compute_inter_hd]
    induction a with
    | nil => simp
    | cons s rest ih =>
      simp only [List.flatMap_cons, List.length_append, List.length_map, ih,
        List.length_cons]
      ring

/-- C3: for a non-empty cohort of equal-length sequences, the majority
fingerprint has bit 1 at position i exactly when the per-bit 1-rate at
i is at least 0.5; in particular an exact tie yields bit 1. -/
theorem compute_fingerprint_majority (samples : List (List Nat)) (i : Nat)
    (_hne : samples ≠ [])
    (_hrect : ∀ s ∈ samples, s.length = cohortLen samples)
    (hi : i < cohortLen samples) :
    ((compute_fingerprint samples).getD i 0 = 1 ↔
      (1 : ℚ) / 2 ≤ perBitRate samples i) ∧
    (perBitRate samples i = 1 / 2 →
      (compute_fingerprint samples).getD i 0 = 1) := by
  have hlen : (compute_fingerprint samples).length = cohortLen samples := by
    simp [compute_fingerprint]
  have hget : (compute_fingerprint samples).getD i 0 =
      if (1 : ℚ) / 2 ≤ perBitRate samples i then 1 else 0 := by
    rw [List.getD_eq_getElem _ _ (hlen ▸ hi)]
    simp [compute_fingerprint]
  rw [hget]
  constructor
  · by_cases h : (1 : ℚ) / 2 ≤ perBitRate samples i
    · simp [h]
    · simp [h]
  · intro htie
    rw [htie]
    simp

/-- C3 witness: a two-member cohort with an exact tie at position 0. -/
theorem compute_fingerprint_majority_witness :
    ([[1], [0]] : List (List Nat)) ≠ [] ∧
    (∀ s ∈ ([[1], [0]] : List (List Nat)), s.length = cohortLen [[1], [0]]) ∧
    0 < cohortLen [[1], [0]] ∧
    (((compute_fingerprint [[1], [0]]).getD 0 0 = 1 ↔
        (1 : ℚ) / 2 ≤ perBitRate [[1], [0]] 0) ∧
      (perBitRate [[1], [0]] 0 = 1 / 2 →
        (compute_fingerprint [[1], [0]]).getD 0 0 = 1)) :=
  ⟨by decide, by decide, by decide,
    compute_fingerprint_majority [[1], [0]] 0 (by decide) (by decide) (by decide)⟩

/-- C10: applying the XOR mask to a sample no longer than the mask
returns a sequence of the sample's length in which positions under a
0 mask bit are unchanged and positions under a 1 mask bit are
flipped. -/
theorem apply_xor_mask_one_frame (s mask : List Nat)
    (hlen : s.length ≤ mask.length) (hbits : ∀ b ∈ s, b ≤ 1) :
    (apply_xor_mask_one s mask).length = s.length ∧
    ∀ i, i < s.length →
      (mask.getD i 0 = 0 →
        (apply_xor_mask_one s mask).getD i 0 = s.getD i 0) ∧
      (mask.getD i 0 = 1 →
        (apply_xor_mask_one s mask).getD i 0 = 1 - s.getD i 0) := by
  have hout : (apply_xor_mask_one s mask).length = s.length := by
    simp only [apply_xor_mask_one, List.length_zipWith, List.length_take]
    omega
  refine ⟨hout, fun i hi => ?_⟩
  have himask : i < mask.length := lt_of_lt_of_le hi hlen
  have hitake : i < (mask.take s.length).length := by
    simp only [List.length_take]; omega
  have hval : (apply_xor_mask_one s mask).getD i 0 =
      s.getD i 0 ^^^ mask.getD i 0 := by
    rw [List.getD_eq_getElem _ _ (hout ▸ hi), List.getD_eq_getElem _ _ hi,
      List.getD_eq_getElem _ _ himask]
    simp only [apply_xor_mask_one, List.getElem_zipWith, List.getElem_take]
  have hbit : s.getD i 0 ≤ 1 := by
    have hmem : s.getD i 0 ∈ s := by
      rw [List.getD_eq_getElem _ _ hi]
      exact List.getElem_mem hi
    exact hbits _ hmem
  constructor
  · intro h0
    rw [hval, h0, Nat.xor_zero]
  · intro h1
    rw [hval, h1]
    interval_cases h : s.getD i 0 <;> decide

/-- C10 witness. -/
theorem apply_xor_mask_one_frame_witness :
    ([1, 0] : List Nat).length ≤ ([1, 0, 1] : List Nat).length ∧
    (∀ b ∈ ([1, 0] : List Nat), b ≤ 1) ∧
    ((apply_xor_mask_one [1, 0] [1, 0, 1]).length = ([1, 0] : List Nat).length ∧
      ∀ i, i < ([1, 0] : List Nat).length →
        (([1, 0, 1] : List Nat).getD i 0 = 0 →
          (apply_xor_mask_one [1, 0] [1, 0, 1]).getD i 0 =
            ([1, 0] : List Nat).getD i 0) ∧
        (([1, 0, 1] : List Nat).getD i 0 = 1 →
          (apply_xor_mask_one [1, 0] [1, 0, 1]).getD i 0 =
            1 - ([1, 0] : List Nat).getD i 0)) :=
  ⟨by decide, by decide,
    apply_xor_mask_one_frame [1, 0] [1, 0, 1] (by decide) (by decide)⟩

theorem hexDigitVal?_hexDigitChar (d : Nat) (h : d < 16) :
    hexDigitVal? (hexDigitChar d) = some d := by
  interval_cases d <;> decide

theorem stripSeparators_cons_hexPair (d₁ d₂ : Nat) (h₁ : d₁ < 16)
    (h₂ : d₂ < 16) (l : List Char) :
    stripSeparators (hexDigitChar d₁ :: hexDigitChar d₂ :: ' ' :: l) =
      hexDigitChar d₁ :: hexDigitChar d₂ :: stripSeparators l := by
  have k₁ : ¬(hexDigitChar d₁ = ' ' ∨ hexDigitChar d₁ = '\r' ∨
      hexDigitChar d₁ = '\n' ∨ hexDigitChar d₁ = '.') := by
    interval_cases d₁ <;> decide
  have k₂ : ¬(hexDigitChar d₂ = ' ' ∨ hexDigitChar d₂ = '\r' ∨
      hexDigitChar d₂ = '\n' ∨ hexDigitChar d₂ = '.') := by
    interval_cases d₂ <;> decide
  push_neg at k₁ k₂
  simp [stripSeparators, List.filter_cons, k₁.1, k₁.2.1, k₁.2.2.1, k₁.2.2.2,
    k₂.1, k₂.2.1, k₂.2.2.1, k₂.2.2.2]

theorem strip_renderHex (bytes : List Nat) (h : ∀ b ∈ bytes, b < 256) :
    stripSeparators (renderHex bytes) =
      bytes.flatMap (fun b => [hexDigitChar (b / 16), hexDigitChar (b % 16)]) := by
  induction bytes with
  | nil => rfl
  | cons b rest ih =>
    have hb : b < 256 := h b (by simp)
    have hrest := ih (fun x hx => h x (by simp [hx]))
    simp only [renderHex, List.flatMap_cons, List.cons_append,
      List.nil_append] at *
    rw [stripSeparators_cons_hexPair (b / 16) (b % 16) (by omega) (by omega),
      hrest]

theorem parseHexBytes_pairs (bytes : List Nat) (h : ∀ b ∈ bytes, b < 256) :
    parseHexBytes
      (bytes.flatMap (fun b => [hexDigitChar (b / 16), hexDigitChar (b % 16)])) =
      bytes := by
  induction bytes with
  | nil => rfl
  | cons b rest ih =>
    have hb : b < 256 := h b (by simp)
    have hrest := ih (fun x hx => h x (by simp [hx]))
    simp only [List.flatMap_cons, List.cons_append, List.nil_append]
    rw [parseHexBytes]
    rw [show hexPairVal? (hexDigitChar (b / 16)) (hexDigitChar (b % 16)) =
        some (16 * (b / 16) + b % 16) by
      simp [hexPairVal?, hexDigitVal?_hexDigitChar (b / 16) (by omega),
        hexDigitVal?_hexDigitChar (b % 16) (by omega)]]
    rw [hrest]
    have hb16 : 16 * (b / 16) + b % 16 = b := by omega
    rw [hb16]

theorem bitsToByte_byteToBits (b : Nat) (h : b < 256) :
    bitsToByte (byteToBits b) = b := by
  have hbyte : byteToBits b =
      [(b >>> 7) &&& 1, (b >>> 6) &&& 1, (b >>> 5) &&& 1, (b >>> 4) &&& 1,
        (b >>> 3) &&& 1, (b >>> 2) &&& 1, (b >>> 1) &&& 1, (b >>> 0) &&& 1] :=
    rfl
  rw [hbyte]
  simp only [bitsToByte, List.foldl_cons, List.foldl_nil,
    Nat.shiftRight_eq_div_pow, Nat.and_one_is_mod]
  norm_num
  omega

theorem packbits_byte_append (b : Nat) (hb : b < 256) (rest : List Nat) :
    packbits (byteToBits b ++ rest) = b :: packbits rest := by
  have hlen : (byteToBits b).length = 8 := byteToBits_length b
  have htake : (byteToBits b ++ rest).take 8 = byteToBits b := by
    rw [← hlen]; exact List.take_left _ _
  have hdrop : (byteToBits b ++ rest).drop 8 = rest := by
    rw [← hlen]; exact List.drop_left _ _
  have hcons : byteToBits b ++ rest =
      ((b >>> 7) &&& 1) ::
        (((b >>> 6) &&& 1) :: ((b >>> 5) &&& 1) :: ((b >>> 4) &&& 1) ::
          ((b >>> 3) &&& 1) :: ((b >>> 2) &&& 1) :: ((b >>> 1) &&& 1) ::
          ((b >>> 0) &&& 1) :: rest) := rfl
  rw [hcons]
  rw [packbits]
  rw [← hcons, htake, hdrop, hlen]
  simp only [Nat.sub_self, List.replicate_zero, List.append_nil]
  rw [bitsToByte_byteToBits b hb]

theorem packbits_flatMap (bytes : List Nat) (h : ∀ b ∈ bytes, b < 256) :
    packbits (bytes.flatMap byteToBits) = bytes := by
  induction bytes with
  | nil => rw [List.flatMap_nil, packbits]
  | cons b rest ih =>
    have hb : b < 256 := h b (by simp)
    have hrest := ih (fun x hx => h x (by simp [hx]))
    simp only [List.flatMap_cons]
    rw [packbits_byte_append b hb, hrest]

/-- C5: rendering a byte array as hexadecimal text, decoding it to a
bit sequence, and packing that sequence back into bytes (MSB-first,
zero-padded to a byte boundary) reproduces the original bytes exactly
(the decoder emits only whole bytes, so no padding is ever needed). -/
theorem decode_pack_roundtrip (bytes : List Nat) (h : ∀ b ∈ bytes, b < 256) :
    packbits (load_sram_file (renderHex bytes)) = bytes := by
  rw [load_sram_file, strip_renderHex bytes h, parseHexBytes_pairs bytes h,
    packbits_flatMap bytes h]

/-- C5 witness. -/
theorem decode_pack_roundtrip_witness :
    (∀ b ∈ ([170, 187] : List Nat), b < 256) ∧
      packbits (load_sram_file (renderHex [170, 187])) = [170, 187] :=
  ⟨by decide, decode_pack_roundtrip [170, 187] (by decide)⟩

theorem shuffleGo_perm (fuel : Nat) :
    ∀ (s : Nat) (l : List Nat), l.length ≤ fuel →
      List.Perm (shuffleGo fuel s l) l := by
  induction fuel with
  | zero =>
    intro s l h
    have : l = [] := List.length_eq_zero.mp (Nat.le_zero.mp h)
    subst this
    simp [shuffleGo]
  | succ fuel ih =>
    intro s l h
    cases l with
    | nil => simp [shuffleGo]
    | cons x xs =>
      have hlen : 0 < (x :: xs).length := by simp
      have hidx : s % (x :: xs).length < (x :: xs).length :=
        Nat.mod_lt _ hlen
      have hmem : (x :: xs).getD (s % (x :: xs).length) 0 ∈ x :: xs := by
        rw [List.getD_eq_getElem _ _ hidx]
        exact List.getElem_mem hidx
      have hperm := List.perm_cons_erase hmem
      have herase :
          ((x :: xs).erase ((x :: xs).getD (s % (x :: xs).length) 0)).length
            ≤ fuel := by
        have := List.length_erase_add_one hmem
        simp only [List.length_cons] at h this ⊢
        omega
      have hstep : shuffleGo (fuel + 1) s (x :: xs)
          = (x :: xs).getD (s % (x :: xs).length) 0 ::
              shuffleGo fuel (lcgNext s)
                ((x :: xs).erase ((x :: xs).getD (s % (x :: xs).length) 0)) :=
        rfl
      rw [hstep]
      exact ((ih _ _ herase).cons _).trans hperm.symm

theorem shuffle_perm (seed : Nat) (l : List Nat) :
    List.Perm (shuffle seed l) l :=
  shuffleGo_perm l.length seed l le_rfl

theorem selectIndices_subset (seed : Nat) (pool : List Nat) (k : Nat) :
    selectIndices seed pool k ⊆ pool :=
  fun _ hx =>
    (shuffle_perm seed pool).subset ((List.take_sublist _ _).subset hx)

theorem selectIndices_nodup (seed : Nat) (pool : List Nat) (k : Nat)
    (hnd : pool.Nodup) : (selectIndices seed pool k).Nodup :=
  ((List.take_sublist _ _).nodup
    (((shuffle_perm seed pool).nodup_iff).mpr hnd))

theorem selectIndices_length (seed : Nat) (pool : List Nat) (k : Nat) :
    (selectIndices seed pool k).length = min k pool.length := by
  rw [selectIndices, List.length_take, (shuffle_perm seed pool).length_eq]

theorem countOnes_indicator (n : Nat) (sel : List Nat) (hnd : sel.Nodup)
    (hbound : ∀ j ∈ sel, j < n) :
    countOnes ((List.range n).map (fun i => if i ∈ sel then 1 else 0)) =
      sel.length := by
  have hfun : (fun i => ((if i ∈ sel then (1 : Nat) else 0) == 1)) =
      fun i => decide (i ∈ sel) := by
    funext i
    by_cases h : i ∈ sel <;> simp [h]
  rw [countOnes, List.count, List.countP_map]
  show List.countP (fun i => ((if i ∈ sel then (1 : Nat) else 0) == 1))
    (List.range n) = sel.length
  rw [hfun, List.countP_eq_length_filter]
  refine List.Perm.length_eq ?_
  refine (List.perm_ext_iff_of_nodup
    ((List.nodup_range n).filter _) hnd).mpr ?_
  intro a
  simp only [List.mem_filter, List.mem_range, decide_eq_true_eq]
  exact ⟨fun h => h.2, fun h => ⟨hbound a h, h⟩⟩

theorem pyInt_eq_floor (q : ℚ) (h : 0 ≤ q) : pyInt q = ⌊q⌋ := by
  rw [pyInt, Rat.floor_def]
  exact Int.tdiv_eq_ediv (Rat.num_nonneg.mpr h) (Int.natCast_nonneg _)

theorem eligibleIndices_nodup (samples : List (List Nat)) :
    (eligibleIndices samples).Nodup :=
  (List.nodup_range _).filter _

theorem eligibleIndices_bound (samples : List (List Nat)) :
    ∀ j ∈ eligibleIndices samples, j < cohortLen samples := by
  intro j hj
  exact List.mem_range.mp (List.mem_filter.mp hj).1

theorem eligibleIndices_rate (samples : List (List Nat)) :
    ∀ j ∈ eligibleIndices samples, perBitRate samples j < 1 / 20 := by
  intro j hj
  have := (List.mem_filter.mp hj).2
  simpa using this

/-- C1: any mask the debias engine produces sets bits only at positions
whose per-bit 1-rate is below 0.05, never more of them than there are
eligible stable-zero positions; and when the global 1-rate is below
0.5 the number of set bits is exactly
`min(floor((0.5 - globalRate) · L), |eligible|)`. -/
theorem create_xor_mask_spec (samples : List (List Nat)) (mask : List Nat)
    (_hne : samples ≠ [])
    (_hrect : ∀ s ∈ samples, s.length = cohortLen samples)
    (hm : create_xor_mask samples = some mask) :
    (∀ i, mask.getD i 0 = 1 → perBitRate samples i < 1 / 20) ∧
    countOnes mask ≤ (eligibleIndices samples).length ∧
    (currentHW samples < 1 / 2 →
      (countOnes mask : ℤ) =
        min ⌊((1 : ℚ) / 2 - currentHW samples) * (cohortLen samples : ℚ)⌋
          ((eligibleIndices samples).length : ℤ)) := by
  unfold create_xor_mask create_xor_mask_run create_xor_mask_seeded at hm
  by_cases hneg : numToFlip samples < 0
  · rw [if_pos hneg] at hm
    exact absurd hm (by simp)
  · rw [if_neg hneg] at hm
    have hmask := (Option.some_inj.mp hm).symm
    set sel := selectIndices 42 (eligibleIndices samples)
      (numToFlip samples).toNat with hsel
    have hselSub : sel ⊆ eligibleIndices samples :=
      selectIndices_subset _ _ _
    have hselNodup : sel.Nodup :=
      selectIndices_nodup _ _ _ (eligibleIndices_nodup samples)
    have hselBound : ∀ j ∈ sel, j < cohortLen samples :=
      fun j hj => eligibleIndices_bound samples j (hselSub hj)
    have hselLen : sel.length =
        min (numToFlip samples).toNat (eligibleIndices samples).length :=
      selectIndices_length _ _ _
    have hcount : countOnes mask = sel.length := by
      rw [hmask]
      exact countOnes_indicator _ _ hselNodup hselBound
    refine ⟨?_, ?_, ?_⟩
    · intro i h1
      have hmem : i ∈ sel := by
        by_cases hi : i < mask.length
        · rw [List.getD_eq_getElem _ _ hi] at h1
          subst hmask
          simp only [List.getElem_map, List.getElem_range] at h1
          by_contra hni
          rw [if_neg hni] at h1
          exact absurd h1 (by decide)
        · rw [List.getD_eq_default _ _ (Nat.le_of_not_lt hi)] at h1
          exact absurd h1 (by decide)
      exact eligibleIndices_rate samples i (hselSub hmem)
    · rw [hcount, hselLen]
      exact Nat.min_le_right _ _
    · intro hlt
      have hq : (0 : ℚ) ≤ ((1 : ℚ) / 2 - currentHW samples) *
          (cohortLen samples : ℚ) := by
        have h₁ : (0 : ℚ) ≤ 1 / 2 - currentHW samples := by linarith
        positivity
      have hfl : (0 : ℤ) ≤
          ⌊((1 : ℚ) / 2 - currentHW samples) * (cohortLen samples : ℚ)⌋ :=
        Int.floor_nonneg.mpr hq
      have hpy : pyInt (((1 : ℚ) / 2 - currentHW samples) *
          (cohortLen samples : ℚ)) =
          ⌊((1 : ℚ) / 2 - currentHW samples) * (cohortLen samples : ℚ)⌋ :=
        pyInt_eq_floor _ hq
      have hn0 : (0 : ℤ) ≤ numToFlip samples := Int.not_lt.mp hneg
      have hle : numToFlip samples ≤ ((eligibleIndices samples).length : ℤ) :=
        min_le_right _ _
      have htn : (numToFlip samples).toNat ≤
          (eligibleIndices samples).length := by
        omega
      rw [hcount, hselLen, Nat.min_eq_left htn]
      rw [Int.toNat_of_nonneg hn0]
      rw [numToFlip, hpy]

theorem perBitRate_example (i : Nat) : perBitRate [[0, 0, 0, 0]] i = 0 := by
  have hget : ([0, 0, 0, 0] : List Nat)[i]?.getD 0 = 0 := by
    rcases i with _ | _ | _ | _ | i <;> rfl
  simp [perBitRate, hget]

theorem currentHW_example : currentHW [[0, 0, 0, 0]] = 0 := by
  rw [currentHW]
  have hmap : List.map (perBitRate [[0, 0, 0, 0]])
      (List.range (cohortLen [[0, 0, 0, 0]])) =
      List.map (fun _ => (0 : ℚ)) (List.range (cohortLen [[0, 0, 0, 0]])) :=
    List.map_congr_left (fun i _ => perBitRate_example i)
  rw [hmap]
  simp

theorem eligibleIndices_example : eligibleIndices [[0, 0, 0, 0]] = [0, 1, 2, 3] := by
  show List.filter _ (List.range (cohortLen [[0, 0, 0, 0]])) = _
  norm_num [eligibleIndices, cohortLen, perBitRate_example, List.range_succ]

theorem numToFlip_example : numToFlip [[0, 0, 0, 0]] = 2 := by
  have hq : ((1 : ℚ) / 2 - currentHW [[0, 0, 0, 0]]) *
      (cohortLen [[0, 0, 0, 0]] : ℚ) = 2 := by
    rw [currentHW_example]
    norm_num [cohortLen]
  rw [numToFlip, hq, eligibleIndices_example,
    pyInt_eq_floor 2 (by norm_num)]
  norm_num

theorem create_xor_mask_example :
    create_xor_mask [[0, 0, 0, 0]] = some [0, 0, 1, 1] := by
  rw [create_xor_mask, create_xor_mask_run, create_xor_mask_seeded,
    numToFlip_example, eligibleIndices_example,
    if_neg (by norm_num)]
  decide

/-- C1 witness: an all-zero four-bit single-sample cohort; the engine
flips 2 of the 4 eligible positions. -/
theorem create_xor_mask_spec_witness :
    ([[0, 0, 0, 0]] : List (List Nat)) ≠ [] ∧
    (∀ s ∈ ([[0, 0, 0, 0]] : List (List Nat)),
      s.length = cohortLen [[0, 0, 0, 0]]) ∧
    create_xor_mask [[0, 0, 0, 0]] = some [0, 0, 1, 1] ∧
    ((∀ i, ([0, 0, 1, 1] : List Nat).getD i 0 = 1 →
        perBitRate [[0, 0, 0, 0]] i < 1 / 20) ∧
      countOnes [0, 0, 1, 1] ≤ (eligibleIndices [[0, 0, 0, 0]]).length ∧
      (currentHW [[0, 0, 0, 0]] < 1 / 2 →
        (countOnes [0, 0, 1, 1] : ℤ) =
          min ⌊((1 : ℚ) / 2 - currentHW [[0, 0, 0, 0]]) *
              (cohortLen [[0, 0, 0, 0]] : ℚ)⌋
            ((eligibleIndices [[0, 0, 0, 0]]).length : ℤ))) :=
  ⟨by decide, by decide, create_xor_mask_example,
    create_xor_mask_spec [[0, 0, 0, 0]] [0, 0, 1, 1]
      (by decide) (by decide) create_xor_mask_example⟩

/-- C7: mask construction is deterministic — the engine reseeds the
generator with the fixed seed 42, so two runs on the same cohort from
any two ambient generator states produce the identical mask, the one
`create_xor_mask` denotes. -/
theorem create_xor_mask_deterministic (r₁ r₂ : Nat)
    (samples : List (List Nat)) :
    create_xor_mask_run r₁ samples = create_xor_mask_run r₂ samples ∧
    create_xor_mask_run r₁ samples = create_xor_mask samples :=
  ⟨rfl, rfl⟩

end PUF
